import Mathlib

/-!
Shallow embedding of the `hamilton_dp` package: the 2-interval bipartite
graph model (`intervals.py`), the dynamic-programming solver
(`dp_solver.py`) and the backtracking validator (`backtracking.py`),
together with proofs of the specified properties.
-/

namespace HamiltonDP

/-- Closed interval `[l, r]` on the X side, or empty if `l` or `r` is `none`.
Mirrors `TwoInterval` in `intervals.py`; bounds are integers. -/
structure TwoInterval where
  l : Option Int
  r : Option Int
deriving DecidableEq, Repr

namespace TwoInterval

/-- `TwoInterval.is_empty`: the interval is empty when either bound is absent. -/
def is_empty (it : TwoInterval) : Bool :=
  it.l.isNone || it.r.isNone

/-- `TwoInterval.contains`. -/
def contains (it : TwoInterval) (i : Int) : Bool :=
  if it.is_empty then false
  else (it.l.getD 0 ≤ i) && (i ≤ it.r.getD 0)

/-- `TwoInterval.is_left_endpoint`. -/
def is_left_endpoint (it : TwoInterval) (i : Int) : Bool :=
  (!it.is_empty) && (it.l.getD 0 == i)

/-- `TwoInterval.is_right_endpoint`. -/
def is_right_endpoint (it : TwoInterval) (i : Int) : Bool :=
  (!it.is_empty) && (it.r.getD 0 == i)

/-- `TwoInterval.strictly_inside`. -/
def strictly_inside (it : TwoInterval) (i : Int) : Bool :=
  if it.is_empty then false
  else (it.l.getD 0 < i) && (i < it.r.getD 0)

end TwoInterval

/-- Vertex from the Y-part of the bipartite graph (`YVertex` in `intervals.py`). -/
structure YVertex where
  first : TwoInterval
  second : TwoInterval
deriving DecidableEq, Repr

/-- Side tag of a vertex, the `"X"` / `"Y"` strings of the Python code. -/
inductive Side where
  | X : Side
  | Y : Side
deriving DecidableEq, Repr

/-- An edge record `("X", i, "Y", y)` as stored in `TwoIntervalBipartiteGraph.edges`. -/
abbrev Edge := Side × Nat × Side × Nat

/-- The integer points of an interval, in increasing order: Python's
`range(it.l, it.r + 1)` as used in `__post_init__`. -/
def intervalPoints (it : TwoInterval) : List Int :=
  match it.l, it.r with
  | some l, some r => (List.range (r + 1 - l).toNat).map (fun j => l + j)
  | _, _ => []

/-- One step of the adjacency build: append `y` to the bucket of X-index `i`
(Python's `self.neighbors_x[i].append(y_idx)`). -/
def appendNbr (nx : List (List Nat)) (i : Nat) (y : Nat) : List (List Nat) :=
  nx.set i ((nx.getD i []) ++ [y])

/-- The adjacency lists X → Y built in `TwoIntervalBipartiteGraph.__post_init__`:
for each Y-vertex in order, for each of its two intervals, append the Y-index to
every covered X-bucket. -/
def buildNeighborsX (n : Nat) (ys : List YVertex) : List (List Nat) :=
  (ys.enum).foldl
    (fun nx p =>
      let yIdx := p.1
      let yv := p.2
      [yv.first, yv.second].foldl
        (fun nx2 it =>
          (intervalPoints it).foldl
            (fun nx3 i => appendNbr nx3 i.toNat yIdx) nx2)
        nx)
    (List.replicate n [])

/-- The edge set built in `__post_init__` (as a list in insertion order; the
intervals of one Y-vertex are disjoint, so no pair is inserted twice). -/
def buildEdges (ys : List YVertex) : List Edge :=
  (ys.enum).foldl
    (fun es p =>
      let yIdx := p.1
      let yv := p.2
      [yv.first, yv.second].foldl
        (fun es2 it =>
          (intervalPoints it).foldl
            (fun es3 i => es3 ++ [(Side.X, i.toNat, Side.Y, yIdx)]) es2)
        es)
    []

/-- Bipartite graph `G = (X, Y, E)` with the 2-interval structure on side X
(`TwoIntervalBipartiteGraph`), with the adjacency data cached at construction. -/
structure Graph where
  n : Nat
  y_vertices : List YVertex
  neighbors_x : List (List Nat)
  edges : List Edge
deriving DecidableEq, Repr

/-- Assemble the graph record with its derived adjacency, as the tail of
`__post_init__` does after the assertions have passed. -/
def mkGraphRaw (n : Nat) (ys : List YVertex) : Graph :=
  { n := n
    y_vertices := ys
    neighbors_x := buildNeighborsX n ys
    edges := buildEdges ys }

/-- The validation of one interval in `__post_init__`:
`if not it.is_empty: assert 0 <= it.l <= it.r < self.n`. -/
def intervalOk (n : Nat) (it : TwoInterval) : Bool :=
  if it.is_empty then true
  else (0 ≤ it.l.getD 0) && (it.l.getD 0 ≤ it.r.getD 0) && (it.r.getD 0 < (n : Int))

/-- The validation of one Y-vertex in `__post_init__`: both intervals in range,
and if both non-empty then `first.r < second.l`. -/
def yVertexOk (n : Nat) (yv : YVertex) : Bool :=
  intervalOk n yv.first && intervalOk n yv.second &&
    (if (!yv.first.is_empty) && (!yv.second.is_empty)
     then yv.first.r.getD 0 < yv.second.l.getD 0
     else true)

/-- Graph construction: `TwoIntervalBipartiteGraph(n, y_vertices)`.  The
assertions of `__post_init__` become an `Except.error` surfaced to the caller;
when they pass, the fully built graph is returned. -/
def buildGraph (n : Nat) (ys : List YVertex) : Except String Graph :=
  if ys.length ≠ n then .error "Expected |Y| = n."
  else if !(ys.all (yVertexOk n)) then
    .error "Interval bounds out of range or I1 and I2 not disjoint and ordered."
  else .ok (mkGraphRaw n ys)

namespace Graph

/-- Default Y-vertex used for out-of-range list access (never hit on indices
produced by the algorithms). -/
def defaultYV : YVertex := ⟨⟨none, none⟩, ⟨none, none⟩⟩

/-- Access `self.y_vertices[y]`. -/
def yv (g : Graph) (y : Nat) : YVertex :=
  g.y_vertices.getD y defaultYV

/-- `TwoIntervalBipartiteGraph.classify_events_at`: the four event lists
`E1, E2, E3, E4` at X-index `i`, each collected over Y-indices in order. -/
def classify_events_at (g : Graph) (i : Nat) :
    List Nat × List Nat × List Nat × List Nat :=
  let idxs := List.range g.y_vertices.length
  ( idxs.filter (fun y => (g.yv y).first.is_left_endpoint (i : Int))
  , idxs.filter (fun y => (g.yv y).first.is_right_endpoint (i : Int))
  , idxs.filter (fun y => (g.yv y).second.is_left_endpoint (i : Int))
  , idxs.filter (fun y => (g.yv y).second.is_right_endpoint (i : Int)) )

/-- `TwoIntervalBipartiteGraph.neighbors_of_x`: Y-neighbours of `x_i`, or `[]`
when `i` is out of range. -/
def neighbors_of_x (g : Graph) (i : Nat) : List Nat :=
  if i < g.n then g.neighbors_x.getD i [] else []

/-- `TwoIntervalBipartiteGraph.is_convex_at`: all neighbours of `y` are within
`{x_0, ..., x_i}`, i.e. the maximum right endpoint of the non-empty intervals
is `≤ i`; false when both intervals are empty. -/
def is_convex_at (g : Graph) (y : Nat) (i : Nat) : Bool :=
  let yvtx := g.yv y
  let rs : List Int :=
    (if !yvtx.first.is_empty then [yvtx.first.r.getD 0] else []) ++
    (if !yvtx.second.is_empty then [yvtx.second.r.getD 0] else [])
  match rs with
  | [] => false
  | r0 :: rest => rest.foldl max r0 ≤ (i : Int)

end Graph

/-! ## DP solver (`dp_solver.py`) -/

/-- DP state `(k, O, L)` (`DPState`): `k` = X-vertices processed, `open_set` =
sorted tuple of open Y-vertices, `loose_flag` ∈ {0,1}. -/
structure DPState where
  k : Nat
  open_set : List Nat
  loose_flag : Nat
deriving DecidableEq, Repr

/-- Transition tags: `"INIT"`, `"T1"` … `"T5"`. -/
inductive TransType where
  | INIT : TransType
  | T1 : TransType
  | T2 : TransType
  | T3 : TransType
  | T4 : TransType
  | T5 : TransType
deriving DecidableEq, Repr

/-- `DPPredecessor`: provenance record for a newly reached state. -/
structure DPPredecessor where
  prev_state : DPState
  transition_type : TransType
  added_edges : List Edge
deriving DecidableEq, Repr

/-- `DPStats` returned by `HamiltonianDPSolver.run`. -/
structure DPStats where
  total_states : Nat
  states_per_k : List (Nat × Nat)
  max_states_per_k : Nat
  transitions_per_type : List (TransType × Nat)
  accepted : Bool
deriving DecidableEq, Repr

/-- Insert into a sorted list of naturals, keeping order. -/
def insortNat (x : Nat) : List Nat → List Nat
  | [] => [x]
  | y :: ys => if x ≤ y then x :: y :: ys else y :: insortNat x ys

/-- Python's `sorted` on a list of naturals (insertion sort). -/
def pySorted (xs : List Nat) : List Nat :=
  xs.foldr insortNat []

/-- `check_stack_order(graph, y1, y2)`: Lemma 1(b) condition — requires
`left(I2_y1) > right(I1_y2)`, `False` whenever `I2_y1` or `I1_y2` is empty. -/
def check_stack_order (g : Graph) (y1 y2 : Nat) : Bool :=
  let yv1 := g.yv y1
  let yv2 := g.yv y2
  if yv1.second.is_empty || yv2.first.is_empty then false
  else yv2.first.r.getD 0 < yv1.second.l.getD 0

/-- A transition triple `(new_state, transition_type, list_of_added_edges)`. -/
abbrev Transition := DPState × TransType × List Edge

/-- Events `E1` at `i`: `y` such that `i` is the left endpoint of `I1_y`. -/
def eventsE1 (g : Graph) (i : Nat) : List Nat := (g.classify_events_at i).1

/-- Events `E2` at `i`: `y` such that `i` is the right endpoint of `I1_y`. -/
def eventsE2 (g : Graph) (i : Nat) : List Nat := (g.classify_events_at i).2.1

/-- Events `E3` at `i`: `y` such that `i` is the left endpoint of `I2_y`. -/
def eventsE3 (g : Graph) (i : Nat) : List Nat := (g.classify_events_at i).2.2.1

/-- Events `E4` at `i`: `y` such that `i` is the right endpoint of `I2_y`. -/
def eventsE4 (g : Graph) (i : Nat) : List Nat := (g.classify_events_at i).2.2.2

/-- The shared tail of T2 and T3: open `yopen` on top of the open set `O`
(after any removal), subject to the stack-order rule when one vertex is
already open, failing when two are. -/
def openWith (g : Graph) (k : Nat) (O : List Nat) (t : TransType)
    (edges : List Edge) (yopen : Nat) : Option Transition :=
  match O with
  | [] => some (⟨k + 1, pySorted [yopen], 0⟩, t, edges)
  | [y_old] =>
      if check_stack_order g y_old yopen then
        some (⟨k + 1, pySorted [y_old, yopen], 0⟩, t, edges)
      else none
  | _ => none

/-- T1 block: `L = 1`, connect to a closing `yclose ∈ O ∩ E3`. -/
def t1Block (g : Graph) (k : Nat) (O : List Nat) : List Transition :=
  (O.filter (fun y => y ∈ eventsE3 g k)).map (fun yclose =>
    (⟨k + 1, pySorted (O.filter (fun y => y ≠ yclose)), 0⟩, TransType.T1,
      [(Side.X, k, Side.Y, yclose)]))

/-- T2 block: `L = 1`, connect to a newly opened `yopen ∈ (E1 ∪ E2) \ O`. -/
def t2Block (g : Graph) (k : Nat) (O : List Nat) : List Transition :=
  ((eventsE1 g k ++ (eventsE2 g k).filter (fun y => y ∉ eventsE1 g k)).filter
      (fun y => y ∉ O)).filterMap
    (fun yopen => openWith g k O TransType.T2 [(Side.X, k, Side.Y, yopen)] yopen)

/-- T3 block: `L = 0`, close `yclose ∈ O ∩ E3` and open `yopen ∈ E2 \ O` in the
same step. -/
def t3Block (g : Graph) (k : Nat) (O : List Nat) : List Transition :=
  (O.filter (fun y => y ∈ eventsE3 g k)).flatMap (fun yclose =>
    ((eventsE2 g k).filter (fun y => y ∉ O)).filterMap (fun yopen =>
      openWith g k (O.filter (fun y => y ≠ yclose)) TransType.T3
        [(Side.X, k, Side.Y, yclose), (Side.X, k, Side.Y, yopen)] yopen))

/-- T4 block: `L = 1`, attach to any neighbour `y` convex at `i = k`. -/
def t4Block (g : Graph) (k : Nat) (O : List Nat) : List Transition :=
  ((g.neighbors_of_x k).filter (fun y => g.is_convex_at y k)).map (fun y =>
    (⟨k + 1, pySorted O, 1⟩, TransType.T4, [(Side.X, k, Side.Y, y)]))

/-- T5 block: fires only when no interval boundary touches position `i = k`. -/
def t5Block (g : Graph) (k : Nat) (O : List Nat) (L : Nat) : List Transition :=
  if (eventsE1 g k).isEmpty && (eventsE2 g k).isEmpty &&
     (eventsE3 g k).isEmpty && (eventsE4 g k).isEmpty then
    [(⟨k + 1, pySorted O, L⟩, TransType.T5, [])]
  else []

/-- The transition triples produced by `HamiltonianDPSolver._enumerate_transitions`
for a state at layer `k` (current X-index `i = k`), in the order the Python code
appends them: T1, T2, T3, T4, T5 blocks, each under its loose-flag guard. -/
def enumTransitions (g : Graph) (state : DPState) : List Transition :=
  let k := state.k
  let O := state.open_set
  let L := state.loose_flag
  if k ≥ g.n then []
  else if (g.neighbors_of_x k).isEmpty then []
  else
    (if L = 1 then t1Block g k O else []) ++
    (if L = 1 then t2Block g k O else []) ++
    (if L = 0 then t3Block g k O else []) ++
    (if L = 1 then t4Block g k O else []) ++
    t5Block g k O L

/-- Mutable engine state of `HamiltonianDPSolver`: the `reachable` key list
(dict insertion order; every stored value is `True`), the `predecessor`
association list and the `transitions_per_type` counters. -/
structure EngineState where
  reachable : List DPState
  predecessor : List (DPState × DPPredecessor)
  tcounts : List (TransType × Nat)
deriving DecidableEq, Repr

/-- Bump a `defaultdict(int)` counter. -/
def bumpCount (cs : List (TransType × Nat)) (t : TransType) : List (TransType × Nat) :=
  match cs with
  | [] => [(t, 1)]
  | (t', c) :: rest => if t' = t then (t', c + 1) :: rest else (t', c) :: bumpCount rest t

/-- The candidate open set of the seed state for a neighbour `y` of `x_0`:
`(y,)` iff `y`'s second interval is non-empty and starts strictly right of 0. -/
def seedOpenSet (g : Graph) (y : Nat) : List Nat :=
  if (!(g.yv y).second.is_empty) && ((g.yv y).second.l.getD 0 > 0) then [y] else []

/-- The body of the seeding loop of `_initial_states` for one neighbour `y`
of `x_0`. -/
def seedStep (g : Graph) (st : EngineState) (y : Nat) : EngineState :=
  let s : DPState := ⟨1, seedOpenSet g y, 1⟩
  if s ∈ st.reachable then st
  else
    { reachable := st.reachable ++ [s]
      predecessor := st.predecessor ++
        [(s, ⟨⟨0, [], 1⟩, TransType.INIT, [(Side.X, 0, Side.Y, y)]⟩)]
      tcounts := bumpCount st.tcounts TransType.INIT }

/-- `HamiltonianDPSolver._initial_states`: seed the DP at `k = 1` with the loose
state `(1, ∅, 1)` and, for each neighbour `y` of `x_0`, the state `(1, O, 1)`
given by `seedOpenSet`. -/
def initialStates (g : Graph) (st : EngineState) : EngineState :=
  let base : DPState := ⟨1, [], 1⟩
  let st := { st with reachable := st.reachable ++ [base] }
  (g.neighbors_of_x 0).foldl (seedStep g) st

/-- Record one fired transition `(new_state, ttype, edges)` out of `state`:
first discovery inserts the state with its predecessor record and bumps the
per-type counter; a re-derivation is a no-op. -/
def recordTransition (st : EngineState) (state : DPState) (tr : Transition) :
    EngineState :=
  if tr.1 ∈ st.reachable then st
  else
    { reachable := st.reachable ++ [tr.1]
      predecessor := st.predecessor ++ [(tr.1, ⟨state, tr.2.1, tr.2.2⟩)]
      tcounts := bumpCount st.tcounts tr.2.1 }

/-- The body of the inner loop of `run`: fire every transition of `state` and
record first discoveries (the `continue` guard re-checks reachability). -/
def processState (g : Graph) (st : EngineState) (state : DPState) : EngineState :=
  if state ∉ st.reachable then st
  else
    (enumTransitions g state).foldl (fun st2 tr => recordTransition st2 state tr) st

/-- One iteration of the layer loop of `run` for a given `k`: snapshot the
current layer-`k` states, record the per-layer count, and process each. -/
def processLayer (g : Graph) (acc : EngineState × List (Nat × Nat)) (k : Nat) :
    EngineState × List (Nat × Nat) :=
  let current := acc.1.reachable.filter (fun s => s.k = k)
  let spk := acc.2 ++ [(k, current.length)]
  (current.foldl (processState g) acc.1, spk)

/-- `HamiltonianDPSolver.run`: clear all engine state, seed layer 1, run the
layer loop for `k = 1 … n-1`, then read off acceptance and the statistics.
Takes the engine state before the call and returns the engine state after it
together with the `DPStats` value. -/
def runFrom (g : Graph) (st : EngineState) : EngineState × DPStats :=
  let st := { st with reachable := [], predecessor := [], tcounts := [] }
  let st := initialStates g st
  let res := (List.range' 1 (g.n - 1)).foldl (processLayer g) (st, [])
  let st := res.1
  let states_per_k := res.2
  let final_state : DPState := ⟨g.n, [], 0⟩
  let accepted := decide (final_state ∈ st.reachable)
  let total_states := st.reachable.length
  let max_states_per_k := (states_per_k.map (fun p => p.2)).foldl max 0
  (st,
   { total_states := total_states
     states_per_k := states_per_k
     max_states_per_k := max_states_per_k
     transitions_per_type := st.tcounts
     accepted := accepted })

/-- `HamiltonianDPSolver.run` on a fresh solver instance. -/
def run (g : Graph) : DPStats :=
  (runFrom g ⟨[], [], []⟩).2

/-- `HamiltonianDPSolver.has_hamiltonian_cycle`. -/
def has_hamiltonian_cycle (g : Graph) : Bool :=
  (run g).accepted

/-! ## Backtracking validator (`backtracking.py`) -/

/-- A path element `("X", i)` / `("Y", j)`. -/
abbrev PathV := Side × Nat

/-- `is_edge(i, y)` inside `find_cycle`: `y in x_neighbors[i]`. -/
def is_edge (g : Graph) (i y : Nat) : Bool :=
  decide (y ∈ g.neighbors_x.getD i [])

/-- The reversed adjacency `y_neighbors` built at the start of `find_cycle`:
for `i` in order, for `y` in `x_neighbors[i]`, append `i` to bucket `y`. -/
def yNeighbors (g : Graph) : List (List Nat) :=
  (List.range g.n).foldl
    (fun acc i =>
      (g.neighbors_x.getD i []).foldl
        (fun acc2 y => acc2.set y ((acc2.getD y []) ++ [i]))
        acc)
    (List.replicate g.n [])

/-- A visited-marker array update (`visited[idx] = True`). -/
def markVisited (vis : Nat → Bool) (idx : Nat) : Nat → Bool :=
  fun j => if j = idx then true else vis j

/-- The recursive `dfs(current_is_x, current_idx)` of `find_cycle`, made
functional: the visited markers and path travel as arguments (backtracking is
implicit — a failed branch's updates are simply discarded), and a fuel
parameter bounds the recursion depth.  Returns the completed path on success. -/
def dfs (g : Graph) (yN : List (List Nat)) :
    Nat → (Nat → Bool) → (Nat → Bool) → List PathV → Bool → Nat →
    Option (List PathV)
  | fuel, visX, visY, path, current_is_x, current_idx =>
    if path.length = 2 * g.n then
      match path.head? with
      | none => none
      | some (first_type, first_idx) =>
        if current_is_x = (first_type = Side.X) then none
        else if current_is_x then
          if is_edge g current_idx first_idx then some path else none
        else
          if is_edge g first_idx current_idx then some path else none
    else
      match fuel with
      | 0 => none
      | fuel + 1 =>
        if current_is_x then
          (g.neighbors_x.getD current_idx []).findSome? (fun y =>
            if visY y then none
            else dfs g yN fuel visX (markVisited visY y)
              (path ++ [(Side.Y, y)]) false y)
        else
          (yN.getD current_idx []).findSome? (fun i =>
            if visX i then none
            else dfs g yN fuel (markVisited visX i) visY
              (path ++ [(Side.X, i)]) true i)

/-- `HamiltonianBacktracking.find_cycle`: try every X-vertex as a start with
fresh visited markers; `n = 0` immediately yields the empty cycle.  The fuel
`2n` dominates the recursion depth (each call below length `2n` pushes one
vertex). -/
def find_cycle (g : Graph) : Option (List PathV) :=
  if g.n = 0 then some []
  else
    let yN := yNeighbors g
    (List.range g.n).findSome? (fun start =>
      dfs g yN (2 * g.n) (markVisited (fun _ => false) start) (fun _ => false)
        [(Side.X, start)] true start)

/-! ## Derived cycle predicates -/

/-- The opposite side. -/
def flipSide : Side → Side
  | Side.X => Side.Y
  | Side.Y => Side.X

/-- The side-tags of the path alternate starting from `s`. -/
def altFrom : Side → List PathV → Bool
  | _, [] => true
  | s, v :: rest => (decide (v.1 = s)) && altFrom (flipSide s) rest

/-- The side-tags of the path alternate `X, Y, X, Y, …` (even positions X,
odd positions Y). -/
def alternatesXY (p : List PathV) : Bool :=
  altFrom Side.X p

/-- Type-consistent adjacency between two path elements: one is an X-vertex,
the other a Y-vertex, and the corresponding edge exists. -/
def edgeBetween (g : Graph) (a b : PathV) : Bool :=
  match a, b with
  | (Side.X, i), (Side.Y, y) => is_edge g i y
  | (Side.Y, y), (Side.X, i) => is_edge g i y
  | _, _ => false

/-- Every consecutive pair of the path is a (type-consistent) edge. -/
def chainOk (g : Graph) : List PathV → Bool
  | a :: b :: rest => edgeBetween g a b && chainOk g (b :: rest)
  | _ => true

/-- The last vertex of the path is type-consistently adjacent to the first
(trivially true of the empty path). -/
def closesCycle (g : Graph) (p : List PathV) : Bool :=
  match p.head?, p.getLast? with
  | some a, some b => edgeBetween g b a
  | _, _ => true

/-! ## The two 3-vertex graphs of `tests/test_small_graphs.py` -/

/-- `build_hamiltonian_n3_graph`: `Y0=[0,1]`, `Y1=[1,2]`, `Y2=[0,0]∪[2,2]`. -/
def hamiltonianN3 : Graph :=
  mkGraphRaw 3
    [ ⟨⟨some 0, some 1⟩, ⟨none, none⟩⟩
    , ⟨⟨some 1, some 2⟩, ⟨none, none⟩⟩
    , ⟨⟨some 0, some 0⟩, ⟨some 2, some 2⟩⟩ ]

/-- `build_non_hamiltonian_n3_graph`: as above but `Y2=[0,0]` only. -/
def nonHamiltonianN3 : Graph :=
  mkGraphRaw 3
    [ ⟨⟨some 0, some 1⟩, ⟨none, none⟩⟩
    , ⟨⟨some 1, some 2⟩, ⟨none, none⟩⟩
    , ⟨⟨some 0, some 0⟩, ⟨none, none⟩⟩ ]

/-- The cycle found by the backtracking search on `hamiltonianN3`. -/
def cycleN3 : List PathV :=
  [(Side.X, 0), (Side.Y, 0), (Side.X, 1), (Side.Y, 1), (Side.X, 2), (Side.Y, 2)]

/-! ## Construction validity (C7) -/

/-- `true` exactly when `TwoIntervalBipartiteGraph(n, ys)` raises an
`AssertionError` during `__post_init__`. -/
def constructionFails (n : Nat) (ys : List YVertex) : Bool :=
  match buildGraph n ys with
  | .error _ => true
  | .ok _ => false

/-- Spec-side description of a bad interval: non-empty with a bound outside
`[0, n-1]`, or with `l > r`. -/
def specBadInterval (n : Nat) (it : TwoInterval) : Prop :=
  it.is_empty = false ∧
    (it.l.getD 0 < 0 ∨ (n : Int) - 1 < it.l.getD 0 ∨
     it.r.getD 0 < 0 ∨ (n : Int) - 1 < it.r.getD 0 ∨
     it.r.getD 0 < it.l.getD 0)

/-- Spec-side description of a bad interval pair: both non-empty but not
ordered with a gap (`first.r < second.l` fails). -/
def specBadGap (yv : YVertex) : Prop :=
  yv.first.is_empty = false ∧ yv.second.is_empty = false ∧
    ¬(yv.first.r.getD 0 < yv.second.l.getD 0)

/-- Spec-side description of when construction must fail: `|Y| ≠ n`, or some
Y-vertex has a bad interval or a bad pair. -/
def specConstructionError (n : Nat) (ys : List YVertex) : Prop :=
  ys.length ≠ n ∨
    ∃ yv ∈ ys, specBadInterval n yv.first ∨ specBadInterval n yv.second ∨ specBadGap yv

/-- The 1-vertex graph whose only X- and Y-vertices are adjacent. -/
def singletonN1 : Graph := mkGraphRaw 1 [⟨⟨some 0, some 0⟩, ⟨none, none⟩⟩]

/-- A 2-vertex graph in which X-index 1 has no Y-neighbours. -/
def isolatedN2 : Graph :=
  mkGraphRaw 2 [⟨⟨some 0, some 0⟩, ⟨none, none⟩⟩, ⟨⟨some 0, some 0⟩, ⟨none, none⟩⟩]

/-- A 3-vertex graph in which every Y-vertex covers `[0, 2]`, so X-index 1
touches no interval boundary. -/
def allCover3 : Graph :=
  mkGraphRaw 3 (List.replicate 3 ⟨⟨some 0, some 2⟩, ⟨none, none⟩⟩)

/-- Spec-level insertion into the reachable set: first discovery wins. -/
def reachInsert (R : List DPState) (s : DPState) : List DPState :=
  if s ∈ R then R else R ++ [s]

/-- Spec-level: fire every applicable transition of `state`, inserting each
discovered successor. -/
def reachStep (g : Graph) (R : List DPState) (state : DPState) : List DPState :=
  (enumTransitions g state).foldl (fun R2 tr => reachInsert R2 tr.1) R

/-- Spec-level: one layer of the run protocol — fire every applicable
transition from every reachable layer-`k` state. -/
def reachLayer (g : Graph) (R : List DPState) (k : Nat) : List DPState :=
  (R.filter (fun s => s.k = k)).foldl (reachStep g) R

/-- Spec-level seeding of layer 1 (the reachable part of `_initial_states`). -/
def seedStates (g : Graph) : List DPState :=
  (g.neighbors_of_x 0).foldl
    (fun R y => reachInsert R ⟨1, seedOpenSet g y, 1⟩) [⟨1, [], 1⟩]

/-- Spec-level run protocol: seed layer 1, then process layers `1 … n-1`. -/
def reachStates (g : Graph) : List DPState :=
  (List.range' 1 (g.n - 1)).foldl (reachLayer g) (seedStates g)

/-! ## Theorems -/

/-- Claim C5: on the 3-vertex graph with `Y0 = [0,1]`, `Y1 = [1,2]`,
`Y2 = [0,0] ∪ [2,2]`, the DP engine's `run()` returns `accepted = true`, and
`find_cycle` on the same graph returns a cycle of length exactly 6 that
alternates X and Y and whose last vertex is adjacent to its first. -/
theorem dp_and_backtracking_accept_hamiltonianN3 :
    (run hamiltonianN3).accepted = true ∧
    find_cycle hamiltonianN3 = some cycleN3 ∧
    cycleN3.length = 6 ∧
    alternatesXY cycleN3 = true ∧
    closesCycle hamiltonianN3 cycleN3 = true := by
  refine ⟨by decide, by decide, by decide, by decide, by decide⟩

/-- Claim C6: on the 3-vertex graph with `Y0 = [0,1]`, `Y1 = [1,2]`, `Y2 = [0,0]`
and empty second interval (the canonical example minus the edge X2–Y2),
`run()` returns `accepted = false` and `find_cycle` returns `none`. -/
theorem dp_and_backtracking_reject_nonHamiltonianN3 :
    (run nonHamiltonianN3).accepted = false ∧
    find_cycle nonHamiltonianN3 = none := by
  refine ⟨by decide, by decide⟩

/-- Claim C8: running the engine twice — or running two engines in arbitrary prior
states over the same graph — produces identical `DPStats` in every field,
because `run` clears the reachable/predecessor/counter maps at its start. -/
theorem run_deterministic_and_clears_state (g : Graph) (st st' : EngineState) :
    (runFrom g st).2 = (runFrom g st').2 ∧
    (runFrom g (runFrom g st).1).2 = (runFrom g st).2 :=
  ⟨rfl, rfl⟩

theorem intervalOk_eq_false_iff (n : Nat) (it : TwoInterval) :
    intervalOk n it = false ↔ specBadInterval n it := by
  unfold intervalOk specBadInterval
  cases h : it.is_empty
  · simp only [h, Bool.false_eq_true, if_false, Bool.and_eq_false_iff,
      decide_eq_false_iff_not, not_le, not_lt, eq_self_iff_true, true_and]
    omega
  · simp [h]

theorem yVertexOk_eq_false_iff (n : Nat) (yv : YVertex) :
    yVertexOk n yv = false ↔
      (specBadInterval n yv.first ∨ specBadInterval n yv.second ∨ specBadGap yv) := by
  unfold yVertexOk
  have hgap : (if (!yv.first.is_empty) && (!yv.second.is_empty)
      then (decide (yv.first.r.getD 0 < yv.second.l.getD 0) : Bool) else true) = false
      ↔ specBadGap yv := by
    cases h1 : yv.first.is_empty <;> cases h2 : yv.second.is_empty <;>
      simp [h1, h2, specBadGap]
  rw [Bool.and_eq_false_iff, Bool.and_eq_false_iff, intervalOk_eq_false_iff,
    intervalOk_eq_false_iff, hgap]
  tauto

theorem all_yVertexOk_eq_false_iff (n : Nat) (ys : List YVertex) :
    ys.all (yVertexOk n) = false ↔
      ∃ yv ∈ ys, specBadInterval n yv.first ∨ specBadInterval n yv.second ∨ specBadGap yv := by
  rw [← Bool.not_eq_true, List.all_eq_true]
  push_neg
  constructor
  · rintro ⟨yv, hm, hf⟩
    refine ⟨yv, hm, (yVertexOk_eq_false_iff n yv).mp ?_⟩
    revert hf
    cases yVertexOk n yv <;> simp
  · rintro ⟨yv, hm, hf⟩
    refine ⟨yv, hm, ?_⟩
    have := (yVertexOk_eq_false_iff n yv).mpr hf
    rw [this]
    exact Bool.false_ne_true

/-- Claim C7: graph construction raises an error if and only if the number of
Y-vertex descriptors differs from `n`, or some non-empty interval has a bound
outside `[0, n-1]` (or `l > r`), or some Y-vertex has both intervals non-empty
without `first.r < second.l`; on every other input construction succeeds and
yields the fully built graph. -/
theorem construction_fails_iff (n : Nat) (ys : List YVertex) :
    (constructionFails n ys = true ↔ specConstructionError n ys) ∧
    (∀ gr, buildGraph n ys = Except.ok gr → gr = mkGraphRaw n ys) := by
  constructor
  · unfold constructionFails buildGraph specConstructionError
    by_cases hlen : ys.length = n
    · cases hall : ys.all (yVertexOk n)
      · simp only [hlen, ne_eq, eq_self_iff_true, not_true, if_false, Bool.not_false,
          if_true]
        exact iff_of_true trivial (Or.inr ((all_yVertexOk_eq_false_iff n ys).mp hall))
      · simp only [hlen, ne_eq, eq_self_iff_true, not_true, if_false, Bool.not_true,
          Bool.false_eq_true, if_true]
        constructor
        · intro h
          exact h.elim
        · rintro (h | ⟨yv, hm, hbad⟩)
          · exact h.elim
          · have := (all_yVertexOk_eq_false_iff n ys).mpr ⟨yv, hm, hbad⟩
            rw [hall] at this
            exact Bool.noConfusion this
    · simp [hlen]
  · intro gr hok
    unfold buildGraph at hok
    by_cases hlen : ys.length = n
    · cases hall : ys.all (yVertexOk n) <;> simp [hlen, hall] at hok
      exact hok.symm
    · simp [hlen] at hok

theorem foldl_reachable_mem {α : Type} {P : DPState → Prop}
    {f : EngineState → α → EngineState}
    (hf : ∀ st y s, s ∈ (f st y).reachable → s ∈ st.reachable ∨ P s) :
    ∀ (l : List α) (st : EngineState) (s : DPState),
      s ∈ (l.foldl f st).reachable → s ∈ st.reachable ∨ P s := by
  intro l
  induction l with
  | nil => intro st s hs; exact Or.inl hs
  | cons y ys ih =>
    intro st s hs
    rcases ih (f st y) s hs with h | h
    · exact hf st y s h
    · exact Or.inr h

theorem seedStep_reachable_mem (g : Graph) (st : EngineState) (y : Nat)
    (s : DPState) (hs : s ∈ (seedStep g st y).reachable) :
    s ∈ st.reachable ∨ (s.k = 1 ∧ s.loose_flag = 1) := by
  unfold seedStep at hs
  dsimp only at hs
  split at hs
  · exact Or.inl hs
  · rcases List.mem_append.mp hs with h | h
    · exact Or.inl h
    · rcases List.mem_singleton.mp h with rfl
      exact Or.inr ⟨rfl, rfl⟩

theorem initialStates_mem (g : Graph) (st0 : EngineState) :
    ∀ s ∈ (initialStates g st0).reachable,
      s ∈ st0.reachable ∨ (s.k = 1 ∧ s.loose_flag = 1) := by
  intro s hs
  unfold initialStates at hs
  rcases foldl_reachable_mem (seedStep_reachable_mem g) _ _ s hs with h | h
  · simp only at h
    rcases List.mem_append.mp h with h' | h'
    · exact Or.inl h'
    · rcases List.mem_singleton.mp h' with rfl
      exact Or.inr ⟨rfl, rfl⟩
  · exact Or.inr h

/-- Claim C9: for every graph with `n ≤ 1`, `run()` returns `accepted = false`
(seeding creates only layer-1 states with loose flag 1 and the layer loop is
empty, so the accepting state `(n, ∅, 0)` is never inserted), even though for
`n = 0` `find_cycle` returns the empty cycle. -/
theorem dp_rejects_small_n (g : Graph) (st : EngineState) (h : g.n ≤ 1) :
    (runFrom g st).2.accepted = false ∧ (g.n = 0 → find_cycle g = some []) := by
  constructor
  · have h0 : g.n - 1 = 0 := by omega
    have hnm : (⟨g.n, [], 0⟩ : DPState) ∉ (initialStates g ⟨[], [], []⟩).reachable := by
      intro hm
      rcases initialStates_mem g ⟨[], [], []⟩ _ hm with hmem | ⟨-, hflag⟩
      · exact absurd hmem (List.not_mem_nil _)
      · exact absurd hflag (by simp)
    simp [runFrom, h0, List.range', hnm]
  · intro h0
    simp [find_cycle, h0]

/-- Witness for `dp_rejects_small_n`: the DP rejects `singletonN1` even though
X0 and Y0 are adjacent. -/
theorem dp_rejects_small_n_witness :
    singletonN1.n ≤ 1 ∧ (runFrom singletonN1 ⟨[], [], []⟩).2.accepted = false :=
  ⟨by decide, (dp_rejects_small_n singletonN1 ⟨[], [], []⟩ (by decide)).1⟩

/-- Witness for `construction_fails_iff`: a 1-vertex input with an interval
reaching index 1 is rejected, and a well-formed 1-vertex input builds the
expected graph. -/
theorem construction_fails_iff_witness :
    specConstructionError 1 [⟨⟨some 0, some 1⟩, ⟨none, none⟩⟩] ∧
    mkGraphRaw 1 [⟨⟨some 0, some 0⟩, ⟨none, none⟩⟩] =
      mkGraphRaw 1 [⟨⟨some 0, some 0⟩, ⟨none, none⟩⟩] :=
  ⟨(construction_fails_iff 1 _).1.mp (by decide),
   (construction_fails_iff 1 [⟨⟨some 0, some 0⟩, ⟨none, none⟩⟩]).2
      (mkGraphRaw 1 [⟨⟨some 0, some 0⟩, ⟨none, none⟩⟩]) rfl⟩

theorem insortNat_length (x : Nat) (xs : List Nat) :
    (insortNat x xs).length = xs.length + 1 := by
  induction xs with
  | nil => rfl
  | cons y ys ih =>
    unfold insortNat
    split <;> simp [ih]

theorem pySorted_cons (x : Nat) (xs : List Nat) :
    pySorted (x :: xs) = insortNat x (pySorted xs) := rfl

theorem pySorted_length (xs : List Nat) : (pySorted xs).length = xs.length := by
  induction xs with
  | nil => rfl
  | cons x xs ih => simp [pySorted_cons, insortNat_length, ih]

theorem mem_insortNat {a x : Nat} {xs : List Nat} :
    a ∈ insortNat x xs ↔ a = x ∨ a ∈ xs := by
  induction xs with
  | nil => simp [insortNat]
  | cons y ys ih =>
    unfold insortNat
    split
    · simp
    · simp [ih]
      tauto

theorem mem_pySorted {a : Nat} {xs : List Nat} : a ∈ pySorted xs ↔ a ∈ xs := by
  induction xs with
  | nil => simp [pySorted]
  | cons x xs ih => rw [pySorted_cons, mem_insortNat, ih, List.mem_cons]

theorem openWith_eq_some {g : Graph} {k : Nat} {O : List Nat} {t : TransType}
    {e : List Edge} {yopen : Nat} {tr : Transition}
    (h : openWith g k O t e yopen = some tr) :
    tr.2.1 = t ∧ tr.2.2 = e ∧ tr.1.k = k + 1 ∧ tr.1.loose_flag = 0 ∧
      ((O = [] ∧ tr.1.open_set = pySorted [yopen]) ∨
       (∃ y_old, O = [y_old] ∧ check_stack_order g y_old yopen = true ∧
          tr.1.open_set = pySorted [y_old, yopen])) := by
  rcases O with _ | ⟨y_old, _ | ⟨y2, rest⟩⟩
  · simp only [openWith] at h
    cases Option.some.inj h
    exact ⟨rfl, rfl, rfl, rfl, Or.inl ⟨rfl, rfl⟩⟩
  · simp only [openWith] at h
    split at h
    · cases Option.some.inj h
      exact ⟨rfl, rfl, rfl, rfl, Or.inr ⟨y_old, rfl, by assumption, rfl⟩⟩
    · exact Option.noConfusion h
  · simp only [openWith] at h
    exact Option.noConfusion h

theorem mem_t1Block {g : Graph} {k : Nat} {O : List Nat} {tr : Transition}
    (h : tr ∈ t1Block g k O) :
    ∃ yclose, yclose ∈ O ∧ yclose ∈ eventsE3 g k ∧
      tr = (⟨k + 1, pySorted (O.filter (fun y => y ≠ yclose)), 0⟩, TransType.T1,
        [(Side.X, k, Side.Y, yclose)]) := by
  unfold t1Block at h
  rcases List.mem_map.mp h with ⟨yclose, hm, rfl⟩
  rcases List.mem_filter.mp hm with ⟨hO, hE⟩
  exact ⟨yclose, hO, by simpa using hE, rfl⟩

theorem mem_t2Block {g : Graph} {k : Nat} {O : List Nat} {tr : Transition}
    (h : tr ∈ t2Block g k O) :
    ∃ yopen, yopen ∉ O ∧ (yopen ∈ eventsE1 g k ∨ yopen ∈ eventsE2 g k) ∧
      openWith g k O TransType.T2 [(Side.X, k, Side.Y, yopen)] yopen = some tr := by
  unfold t2Block at h
  rcases List.mem_filterMap.mp h with ⟨yopen, hm, hw⟩
  rcases List.mem_filter.mp hm with ⟨hu, hO⟩
  refine ⟨yopen, by simpa using hO, ?_, hw⟩
  rcases List.mem_append.mp hu with h1 | h2
  · exact Or.inl h1
  · exact Or.inr (List.mem_filter.mp h2).1

theorem mem_t3Block {g : Graph} {k : Nat} {O : List Nat} {tr : Transition}
    (h : tr ∈ t3Block g k O) :
    ∃ yclose, yclose ∈ O ∧ yclose ∈ eventsE3 g k ∧
    ∃ yopen, yopen ∈ eventsE2 g k ∧ yopen ∉ O ∧
      openWith g k (O.filter (fun y => y ≠ yclose)) TransType.T3
        [(Side.X, k, Side.Y, yclose), (Side.X, k, Side.Y, yopen)] yopen = some tr := by
  unfold t3Block at h
  rcases List.mem_flatMap.mp h with ⟨yclose, hmc, hin⟩
  rcases List.mem_filter.mp hmc with ⟨hO, hE3⟩
  rcases List.mem_filterMap.mp hin with ⟨yopen, hmo, hw⟩
  rcases List.mem_filter.mp hmo with ⟨hE2, hnO⟩
  exact ⟨yclose, hO, by simpa using hE3, yopen, hE2, by simpa using hnO, hw⟩

theorem mem_t4Block {g : Graph} {k : Nat} {O : List Nat} {tr : Transition}
    (h : tr ∈ t4Block g k O) :
    ∃ y, y ∈ g.neighbors_of_x k ∧ g.is_convex_at y k = true ∧
      tr = (⟨k + 1, pySorted O, 1⟩, TransType.T4, [(Side.X, k, Side.Y, y)]) := by
  unfold t4Block at h
  rcases List.mem_map.mp h with ⟨y, hm, rfl⟩
  rcases List.mem_filter.mp hm with ⟨hn, hc⟩
  exact ⟨y, hn, hc, rfl⟩

theorem mem_t5Block {g : Graph} {k : Nat} {O : List Nat} {L : Nat} {tr : Transition}
    (h : tr ∈ t5Block g k O L) :
    ((eventsE1 g k).isEmpty && (eventsE2 g k).isEmpty &&
     (eventsE3 g k).isEmpty && (eventsE4 g k).isEmpty) = true ∧
      tr = (⟨k + 1, pySorted O, L⟩, TransType.T5, []) := by
  unfold t5Block at h
  split at h
  · rcases List.mem_singleton.mp h with rfl
    exact ⟨by assumption, rfl⟩
  · exact absurd h (List.not_mem_nil _)

theorem mem_enumTransitions {g : Graph} {s : DPState} {tr : Transition}
    (h : tr ∈ enumTransitions g s) :
    s.k < g.n ∧ (g.neighbors_of_x s.k).isEmpty = false ∧
    ((s.loose_flag = 1 ∧ tr ∈ t1Block g s.k s.open_set) ∨
     (s.loose_flag = 1 ∧ tr ∈ t2Block g s.k s.open_set) ∨
     (s.loose_flag = 0 ∧ tr ∈ t3Block g s.k s.open_set) ∨
     (s.loose_flag = 1 ∧ tr ∈ t4Block g s.k s.open_set) ∨
     tr ∈ t5Block g s.k s.open_set s.loose_flag) := by
  unfold enumTransitions at h
  dsimp only at h
  by_cases hk : s.k ≥ g.n
  · rw [if_pos hk] at h
    exact absurd h (List.not_mem_nil _)
  · rw [if_neg hk] at h
    refine ⟨by omega, ?_, ?_⟩
    · by_cases hn : (g.neighbors_of_x s.k).isEmpty
      · rw [if_pos hn] at h
        exact absurd h (List.not_mem_nil _)
      · simpa using hn
    · by_cases hn : (g.neighbors_of_x s.k).isEmpty
      · rw [if_pos hn] at h
        exact absurd h (List.not_mem_nil _)
      · rw [if_neg hn] at h
        rcases List.mem_append.mp h with h' | h5
        rotate_left
        · exact Or.inr (Or.inr (Or.inr (Or.inr h5)))
        rcases List.mem_append.mp h' with h' | h4
        rotate_left
        · split at h4
          · exact Or.inr (Or.inr (Or.inr (Or.inl ⟨by assumption, h4⟩)))
          · exact absurd h4 (List.not_mem_nil _)
        rcases List.mem_append.mp h' with h' | h3
        rotate_left
        · split at h3
          · exact Or.inr (Or.inr (Or.inl ⟨by assumption, h3⟩))
          · exact absurd h3 (List.not_mem_nil _)
        rcases List.mem_append.mp h' with h1 | h2
        · split at h1
          · exact Or.inl ⟨by assumption, h1⟩
          · exact absurd h1 (List.not_mem_nil _)
        · split at h2
          · exact Or.inr (Or.inl ⟨by assumption, h2⟩)
          · exact absurd h2 (List.not_mem_nil _)

theorem filter_eq_nil_of {α : Type} {p : α → Bool} {l : List α}
    (h : ∀ x ∈ l, p x = false) : l.filter p = [] := by
  induction l with
  | nil => rfl
  | cons x xs ih =>
    rw [List.filter_cons, h x (List.mem_cons_self x xs)]
    exact ih (fun x' hx' => h x' (List.mem_cons_of_mem x hx'))

/-- Claim C4: from any state with `k ≤ n`, `|O| ≤ 2` and `L ∈ {0,1}`, every
candidate successor produced by the transition enumeration (any of T1–T5)
itself satisfies `k' ≤ n`, `|O'| ≤ 2` and `L' ∈ {0,1}`; in particular no
transition produces a layer index outside `[0, n]`. -/
theorem transitions_preserve_wellformed (g : Graph) (s : DPState)
    (hk : s.k ≤ g.n) (hO : s.open_set.length ≤ 2)
    (hL : s.loose_flag = 0 ∨ s.loose_flag = 1) :
    ∀ tr ∈ enumTransitions g s,
      tr.1.k ≤ g.n ∧ tr.1.open_set.length ≤ 2 ∧
        (tr.1.loose_flag = 0 ∨ tr.1.loose_flag = 1) := by
  intro tr htr
  rcases mem_enumTransitions htr with ⟨hkn, -, hcase⟩
  rcases hcase with ⟨-, h⟩ | ⟨-, h⟩ | ⟨-, h⟩ | ⟨-, h⟩ | h
  · rcases mem_t1Block h with ⟨yclose, -, -, rfl⟩
    refine ⟨by dsimp only; omega, ?_, Or.inl rfl⟩
    simp only [pySorted_length]
    exact le_trans (List.length_filter_le _ _) hO
  · rcases mem_t2Block h with ⟨yopen, -, -, hw⟩
    rcases openWith_eq_some hw with ⟨-, -, hk1, hl0, hcase2⟩
    refine ⟨by omega, ?_, Or.inl hl0⟩
    rcases hcase2 with ⟨-, hOs⟩ | ⟨y_old, -, -, hOs⟩ <;> rw [hOs] <;>
      simp [pySorted_length]
  · rcases mem_t3Block h with ⟨yclose, -, -, yopen, -, -, hw⟩
    rcases openWith_eq_some hw with ⟨-, -, hk1, hl0, hcase2⟩
    refine ⟨by omega, ?_, Or.inl hl0⟩
    rcases hcase2 with ⟨-, hOs⟩ | ⟨y_old, -, -, hOs⟩ <;> rw [hOs] <;>
      simp [pySorted_length]
  · rcases mem_t4Block h with ⟨y, -, -, rfl⟩
    refine ⟨by dsimp only; omega, ?_, Or.inr rfl⟩
    simpa [pySorted_length] using hO
  · rcases mem_t5Block h with ⟨-, rfl⟩
    refine ⟨by dsimp only; omega, ?_, hL⟩
    simpa [pySorted_length] using hO

theorem transitions_preserve_wellformed_witness :
    (⟨2, [0, 2], 0⟩ : DPState).k ≤ hamiltonianN3.n ∧
    (⟨2, [0, 2], 0⟩ : DPState).open_set.length ≤ 2 ∧
    ((⟨2, [0, 2], 0⟩ : DPState).loose_flag = 0 ∨
     (⟨2, [0, 2], 0⟩ : DPState).loose_flag = 1) :=
  transitions_preserve_wellformed hamiltonianN3 ⟨1, [2], 1⟩ (by decide) (by decide)
    (Or.inr rfl) (⟨2, [0, 2], 0⟩, TransType.T2, [(Side.X, 1, Side.Y, 0)]) (by decide)

theorem check_stack_order_true {g : Graph} {y1 y2 : Nat}
    (h : check_stack_order g y1 y2 = true) :
    (g.yv y1).second.is_empty = false ∧ (g.yv y2).first.is_empty = false := by
  unfold check_stack_order at h
  dsimp only at h
  split at h
  · exact Bool.noConfusion h
  · rename_i hcond
    rw [Bool.or_eq_true] at hcond
    push_neg at hcond
    constructor
    · cases he : (g.yv y1).second.is_empty
      · rfl
      · exact absurd he hcond.1
    · cases he : (g.yv y2).first.is_empty
      · rfl
      · exact absurd he hcond.2

/-- Claim C10: `check_stack_order` returns false whenever `y1`'s second
interval is empty or `y2`'s first interval is empty, so transitions T2 and T3
never enlarge the open set to size 2 when the already-open vertex has no
second interval. -/
theorem stack_order_requires_second_interval :
    (∀ (g : Graph) (y1 y2 : Nat),
        (g.yv y1).second.is_empty = true ∨ (g.yv y2).first.is_empty = true →
        check_stack_order g y1 y2 = false) ∧
    (∀ (g : Graph) (s : DPState) (tr : Transition), tr ∈ enumTransitions g s →
        (tr.2.1 = TransType.T2 ∨ tr.2.1 = TransType.T3) →
        tr.1.open_set.length = 2 →
        ∃ y_old, y_old ∈ s.open_set ∧ y_old ∈ tr.1.open_set ∧
          (g.yv y_old).second.is_empty = false) := by
  constructor
  · intro g y1 y2 h
    unfold check_stack_order
    dsimp only
    split
    · rfl
    · rename_i hcond
      rw [Bool.or_eq_true] at hcond
      exact absurd h (by tauto)
  · intro g s tr htr htag hlen
    rcases mem_enumTransitions htr with ⟨-, -, hcase⟩
    rcases hcase with ⟨-, h⟩ | ⟨-, h⟩ | ⟨-, h⟩ | ⟨-, h⟩ | h
    · rcases mem_t1Block h with ⟨yclose, -, -, rfl⟩
      rcases htag with ht | ht <;> exact TransType.noConfusion ht
    · rcases mem_t2Block h with ⟨yopen, -, -, hw⟩
      rcases openWith_eq_some hw with ⟨-, -, -, -, hcase2⟩
      rcases hcase2 with ⟨-, hOs⟩ | ⟨y_old, hOold, hcso, hOs⟩
      · rw [hOs, pySorted_length] at hlen
        simp at hlen
      · refine ⟨y_old, by rw [hOold]; exact List.mem_singleton_self y_old, ?_, ?_⟩
        · rw [hOs]
          exact mem_pySorted.mpr (List.mem_cons_self _ _)
        · exact (check_stack_order_true hcso).1
    · rcases mem_t3Block h with ⟨yclose, -, -, yopen, -, -, hw⟩
      rcases openWith_eq_some hw with ⟨-, -, -, -, hcase2⟩
      rcases hcase2 with ⟨-, hOs⟩ | ⟨y_old, hOold, hcso, hOs⟩
      · rw [hOs, pySorted_length] at hlen
        simp at hlen
      · have hmem : y_old ∈ s.open_set.filter (fun y => y ≠ yclose) := by
          rw [hOold]; exact List.mem_singleton_self y_old
        refine ⟨y_old, (List.mem_filter.mp hmem).1, ?_, ?_⟩
        · rw [hOs]
          exact mem_pySorted.mpr (List.mem_cons_self _ _)
        · exact (check_stack_order_true hcso).1
    · rcases mem_t4Block h with ⟨y, -, -, rfl⟩
      rcases htag with ht | ht <;> exact TransType.noConfusion ht
    · rcases mem_t5Block h with ⟨-, rfl⟩
      rcases htag with ht | ht <;> exact TransType.noConfusion ht

theorem stack_order_requires_second_interval_witness :
    check_stack_order nonHamiltonianN3 2 0 = false ∧
    (hamiltonianN3.yv 2).second.is_empty = false := by
  constructor
  · exact stack_order_requires_second_interval.1 nonHamiltonianN3 2 0 (Or.inl (by decide))
  · rcases stack_order_requires_second_interval.2 hamiltonianN3 ⟨1, [2], 1⟩
      (⟨2, [0, 2], 0⟩, TransType.T2, [(Side.X, 1, Side.Y, 0)]) (by decide)
      (Or.inl rfl) (by decide) with ⟨y_old, hmem, -, hne⟩
    rcases List.mem_singleton.mp hmem with rfl
    exact hne

/-- Claim C3: for a state at layer `k < n` with sorted open set, if X-index
`k` has no adjacent Y-vertices the enumeration yields no successors at all
(T5 included); otherwise the T5 transition fires exactly when the event sets
`E1, E2, E3, E4` at `k` are all empty, and then yields the single successor
`(k+1, O, L)` with `O` and `L` unchanged and an empty added-edge list. -/
theorem t5_fires_iff (g : Graph) (s : DPState) (hk : s.k < g.n)
    (hsorted : pySorted s.open_set = s.open_set) :
    (g.neighbors_of_x s.k = [] → enumTransitions g s = []) ∧
    (g.neighbors_of_x s.k ≠ [] →
      (enumTransitions g s).filter (fun tr => decide (tr.2.1 = TransType.T5)) =
        (if (eventsE1 g s.k).isEmpty && (eventsE2 g s.k).isEmpty &&
            (eventsE3 g s.k).isEmpty && (eventsE4 g s.k).isEmpty then
          [(⟨s.k + 1, s.open_set, s.loose_flag⟩, TransType.T5, [])]
        else [])) := by
  constructor
  · intro hempty
    unfold enumTransitions
    dsimp only
    rw [if_neg (by omega), hempty]
    simp
  · intro hne
    have hblocks : enumTransitions g s =
        (if s.loose_flag = 1 then t1Block g s.k s.open_set else []) ++
        (if s.loose_flag = 1 then t2Block g s.k s.open_set else []) ++
        (if s.loose_flag = 0 then t3Block g s.k s.open_set else []) ++
        (if s.loose_flag = 1 then t4Block g s.k s.open_set else []) ++
        t5Block g s.k s.open_set s.loose_flag := by
      unfold enumTransitions
      dsimp only
      rw [if_neg (by omega), if_neg (by simpa [List.isEmpty_iff] using hne)]
    have hp : ∀ (b : List Transition), (∀ tr ∈ b, tr.2.1 ≠ TransType.T5) →
        b.filter (fun tr => decide (tr.2.1 = TransType.T5)) = [] := by
      intro b hb
      exact filter_eq_nil_of (fun x hx => by simp [hb x hx])
    have hguard : ∀ (b : List Transition), (∀ tr ∈ b, tr.2.1 ≠ TransType.T5) →
        (if s.loose_flag = 1 then b else []).filter
          (fun tr => decide (tr.2.1 = TransType.T5)) = [] := by
      intro b hb
      split
      · exact hp b hb
      · rfl
    have hguard0 : ∀ (b : List Transition), (∀ tr ∈ b, tr.2.1 ≠ TransType.T5) →
        (if s.loose_flag = 0 then b else []).filter
          (fun tr => decide (tr.2.1 = TransType.T5)) = [] := by
      intro b hb
      split
      · exact hp b hb
      · rfl
    have ht1 : ∀ tr ∈ t1Block g s.k s.open_set, tr.2.1 ≠ TransType.T5 := by
      intro tr h
      rcases mem_t1Block h with ⟨y, -, -, rfl⟩
      exact fun hc => TransType.noConfusion hc
    have ht2 : ∀ tr ∈ t2Block g s.k s.open_set, tr.2.1 ≠ TransType.T5 := by
      intro tr h
      rcases mem_t2Block h with ⟨y, -, -, hw⟩
      rw [(openWith_eq_some hw).1]
      exact fun hc => TransType.noConfusion hc
    have ht3 : ∀ tr ∈ t3Block g s.k s.open_set, tr.2.1 ≠ TransType.T5 := by
      intro tr h
      rcases mem_t3Block h with ⟨yc, -, -, yo, -, -, hw⟩
      rw [(openWith_eq_some hw).1]
      exact fun hc => TransType.noConfusion hc
    have ht4 : ∀ tr ∈ t4Block g s.k s.open_set, tr.2.1 ≠ TransType.T5 := by
      intro tr h
      rcases mem_t4Block h with ⟨y, -, -, rfl⟩
      exact fun hc => TransType.noConfusion hc
    rw [hblocks, List.filter_append, List.filter_append, List.filter_append,
      List.filter_append, hguard _ ht1, hguard _ ht2, hguard0 _ ht3, hguard _ ht4]
    simp only [List.nil_append]
    unfold t5Block
    by_cases hg : ((eventsE1 g s.k).isEmpty && (eventsE2 g s.k).isEmpty &&
        (eventsE3 g s.k).isEmpty && (eventsE4 g s.k).isEmpty) = true
    · rw [if_pos hg, if_pos hg]
      simp [List.filter, hsorted]
    · rw [if_neg hg, if_neg hg]
      rfl

/-- Witness for `t5_fires_iff`: a neighbour-less X-index is a dead end, and an
X-index with neighbours but no boundary events fires exactly the T5 advance. -/
theorem t5_fires_iff_witness :
    enumTransitions isolatedN2 ⟨1, [], 1⟩ = [] ∧
    (enumTransitions allCover3 ⟨1, [], 1⟩).filter
        (fun tr => decide (tr.2.1 = TransType.T5)) =
      [(⟨2, [], 1⟩, TransType.T5, [])] := by
  constructor
  · exact (t5_fires_iff isolatedN2 ⟨1, [], 1⟩ (by decide) rfl).1 (by decide)
  · exact (t5_fires_iff allCover3 ⟨1, [], 1⟩ (by decide) rfl).2 (by decide)

theorem recordTransition_reachable (st : EngineState) (state : DPState)
    (tr : Transition) :
    (recordTransition st state tr).reachable = reachInsert st.reachable tr.1 := by
  unfold recordTransition reachInsert
  by_cases hc : tr.1 ∈ st.reachable <;> simp [hc]

theorem foldl_record_reachable (state : DPState) :
    ∀ (trs : List Transition) (st : EngineState),
      (trs.foldl (fun st2 tr => recordTransition st2 state tr) st).reachable =
        trs.foldl (fun R2 tr => reachInsert R2 tr.1) st.reachable := by
  intro trs
  induction trs with
  | nil => intro st; rfl
  | cons t ts ih =>
    intro st
    simp only [List.foldl_cons, ih, recordTransition_reachable]

theorem mem_reachInsert_of_mem {s : DPState} {R : List DPState} (t : DPState)
    (h : s ∈ R) : s ∈ reachInsert R t := by
  unfold reachInsert
  split
  · exact h
  · exact List.mem_append_left _ h

theorem mem_foldl_reachInsert {s : DPState} :
    ∀ (trs : List Transition) (R : List DPState), s ∈ R →
      s ∈ trs.foldl (fun R2 tr => reachInsert R2 tr.1) R := by
  intro trs
  induction trs with
  | nil => intro R h; exact h
  | cons t ts ih => intro R h; exact ih _ (mem_reachInsert_of_mem _ h)

theorem processState_reachable (g : Graph) (st : EngineState) (state : DPState)
    (hmem : state ∈ st.reachable) :
    (processState g st state).reachable = reachStep g st.reachable state := by
  unfold processState reachStep
  rw [if_neg (not_not_intro hmem)]
  exact foldl_record_reachable state _ st

theorem processState_mono (g : Graph) (st : EngineState) (state : DPState)
    {s : DPState} (h : s ∈ st.reachable) :
    s ∈ (processState g st state).reachable := by
  unfold processState
  split
  · exact h
  · rw [foldl_record_reachable]
    exact mem_foldl_reachInsert _ _ h

theorem foldl_processState_reachable (g : Graph) :
    ∀ (cur : List DPState) (st : EngineState), (∀ s ∈ cur, s ∈ st.reachable) →
      (cur.foldl (processState g) st).reachable =
        cur.foldl (reachStep g) st.reachable := by
  intro cur
  induction cur with
  | nil => intro st _; rfl
  | cons c cs ih =>
    intro st h
    simp only [List.foldl_cons]
    rw [ih (processState g st c)
        (fun s hs => processState_mono g st c (h s (List.mem_cons_of_mem c hs))),
      processState_reachable g st c (h c (List.mem_cons_self c cs))]

theorem processLayer_reachable (g : Graph) (st : EngineState)
    (spk : List (Nat × Nat)) (k : Nat) :
    (processLayer g (st, spk) k).1.reachable = reachLayer g st.reachable k := by
  unfold processLayer reachLayer
  dsimp only
  exact foldl_processState_reachable g _ st (fun s hs => (List.mem_filter.mp hs).1)

theorem foldl_processLayer_reachable (g : Graph) :
    ∀ (ks : List Nat) (st : EngineState) (spk : List (Nat × Nat)),
      ((ks.foldl (processLayer g) (st, spk)).1).reachable =
        ks.foldl (reachLayer g) st.reachable := by
  intro ks
  induction ks with
  | nil => intro st spk; rfl
  | cons k ks ih =>
    intro st spk
    simp only [List.foldl_cons]
    have h := processLayer_reachable g st spk k
    rcases hpl : processLayer g (st, spk) k with ⟨st1, spk1⟩
    rw [ih st1 spk1, ← h, hpl]

theorem seedStep_reachable (g : Graph) (st : EngineState) (y : Nat) :
    (seedStep g st y).reachable = reachInsert st.reachable ⟨1, seedOpenSet g y, 1⟩ := by
  unfold seedStep reachInsert
  by_cases hc : (⟨1, seedOpenSet g y, 1⟩ : DPState) ∈ st.reachable <;> simp [hc]

theorem foldl_seedStep_reachable (g : Graph) :
    ∀ (l : List Nat) (st : EngineState),
      ((l.foldl (seedStep g) st).reachable) =
        l.foldl (fun R y => reachInsert R ⟨1, seedOpenSet g y, 1⟩) st.reachable := by
  intro l
  induction l with
  | nil => intro st; rfl
  | cons y l ih =>
    intro st
    simp only [List.foldl_cons, ih, seedStep_reachable]

theorem initialStates_reachable (g : Graph) :
    (initialStates g ⟨[], [], []⟩).reachable = seedStates g := by
  unfold initialStates seedStates
  dsimp only
  rw [foldl_seedStep_reachable]
  rfl

/-- Claim C1: `run()` first clears the engine maps (the result does not depend
on the prior engine state), seeds layer 1, then for `k` from 1 to `n-1` fires
every applicable transition from every reachable layer-`k` state — its final
reachable set equals the spec-level `reachStates` protocol — and the returned
`accepted` is true if and only if the exact state `(n, ∅, L = 0)` is in the
reachable set afterwards. -/
theorem run_protocol (g : Graph) (st : EngineState) :
    (runFrom g st).1.reachable = reachStates g ∧
    ((runFrom g st).2.accepted = true ↔ (⟨g.n, [], 0⟩ : DPState) ∈ reachStates g) := by
  have hre : (runFrom g st).1.reachable = reachStates g := by
    unfold runFrom reachStates
    dsimp only
    rw [foldl_processLayer_reachable, initialStates_reachable]
  refine ⟨hre, ?_⟩
  have hacc : (runFrom g st).2.accepted =
      decide ((⟨g.n, [], 0⟩ : DPState) ∈ (runFrom g st).1.reachable) := rfl
  rw [hacc, hre, decide_eq_true_iff]

theorem run_protocol_witness :
    (⟨3, [], 0⟩ : DPState) ∈ reachStates hamiltonianN3 :=
  (run_protocol hamiltonianN3 ⟨[], [], []⟩).2.mp (by decide)

theorem edgeBetween_flip {g : Graph} {a b : PathV} (h : edgeBetween g a b = true) :
    b.1 = flipSide a.1 := by
  rcases a with ⟨sa, ia⟩
  rcases b with ⟨sb, ib⟩
  cases sa <;> cases sb
  · exact absurd h (by simp [edgeBetween])
  · rfl
  · rfl
  · exact absurd h (by simp [edgeBetween])

theorem chainOk_concat (g : Graph) :
    ∀ (p : List PathV) (a b : PathV), p.getLast? = some a →
      chainOk g p = true → edgeBetween g a b = true → chainOk g (p ++ [b]) = true := by
  intro p
  induction p with
  | nil => intro a b h _ _; exact Option.noConfusion h
  | cons x xs ih =>
    intro a b hlast hchain hedge
    cases xs with
    | nil =>
      have hax : a = x := by simpa using hlast.symm
      subst hax
      simpa [chainOk] using hedge
    | cons y ys =>
      have h2 : (edgeBetween g x y && chainOk g (y :: ys)) = true := hchain
      rw [Bool.and_eq_true] at h2
      have hxy : edgeBetween g x y = true := h2.1
      have hrest : chainOk g (y :: ys) = true := h2.2
      have hl : (y :: ys).getLast? = some a := by
        rw [← List.getLast?_cons_cons (a := x)]
        exact hlast
      have hrec := ih a b hl hrest hedge
      show chainOk g (x :: y :: (ys ++ [b])) = true
      have : chainOk g (x :: y :: (ys ++ [b])) =
          (edgeBetween g x y && chainOk g (y :: (ys ++ [b]))) := rfl
      rw [this, Bool.and_eq_true]
      exact ⟨hxy, hrec⟩

theorem head?_append_singleton {p : List PathV} (b : PathV) (h : p ≠ []) :
    (p ++ [b]).head? = p.head? := by
  cases p with
  | nil => exact absurd rfl h
  | cons x xs => rfl

theorem nodup_concat {p : List PathV} {b : PathV} (hp : p.Nodup) (hb : b ∉ p) :
    (p ++ [b]).Nodup := by
  rw [List.nodup_append]
  refine ⟨hp, List.nodup_singleton b, ?_⟩
  intro a ha hb2
  rcases List.mem_singleton.mp hb2 with rfl
  exact hb ha

theorem getD_set_list (acc : List (List Nat)) (y2 y : Nat) (v : List Nat) :
    (acc.set y2 v).getD y [] =
      if y2 = y ∧ y2 < acc.length then v else acc.getD y [] := by
  rw [List.getD_eq_getElem?_getD, List.getElem?_set, List.getD_eq_getElem?_getD]
  by_cases h1 : y2 = y
  · subst h1
    by_cases h2 : y2 < acc.length
    · simp [h2]
    · have hnone : acc[y2]? = none := List.getElem?_eq_none (by omega)
      simp [h2, hnone]
  · simp [h1]

theorem altFrom_of_chain (g : Graph) :
    ∀ (p : List PathV) (s : Side), chainOk g p = true →
      (∀ h0, p.head? = some h0 → h0.1 = s) → altFrom s p = true := by
  intro p
  induction p with
  | nil => intro s _ _; rfl
  | cons v rest ih =>
    intro s hchain hhead
    have hv : v.1 = s := hhead v rfl
    have hrest : altFrom (flipSide s) rest = true := by
      cases rest with
      | nil => rfl
      | cons w ws =>
        have h2 : (edgeBetween g v w && chainOk g (w :: ws)) = true := hchain
        rw [Bool.and_eq_true] at h2
        refine ih (flipSide s) h2.2 ?_
        intro u hu
        have hw : u = w := by simpa using hu.symm
        subst hw
        rw [edgeBetween_flip h2.1, hv]
    show (decide (v.1 = s) && altFrom (flipSide s) rest) = true
    rw [Bool.and_eq_true, decide_eq_true_iff]
    exact ⟨hv, hrest⟩

theorem inner_fold_mem (i : Nat) :
    ∀ (nl : List Nat) (acc : List (List Nat)) (y j : Nat),
      j ∈ ((nl.foldl (fun acc2 y2 => acc2.set y2 ((acc2.getD y2 []) ++ [i])) acc).getD y []) →
      j ∈ acc.getD y [] ∨ (j = i ∧ y ∈ nl) := by
  intro nl
  induction nl with
  | nil => intro acc y j h; exact Or.inl h
  | cons y2 rest ih =>
    intro acc y j h
    rcases ih _ y j h with h' | ⟨rfl, hmem⟩
    · rw [getD_set_list] at h'
      split at h'
      · rename_i hcond
        rcases List.mem_append.mp h' with h'' | h''
        · rw [← hcond.1]
          exact Or.inl h''
        · rcases List.mem_singleton.mp h'' with rfl
          exact Or.inr ⟨rfl, hcond.1 ▸ List.mem_cons_self _ _⟩
      · exact Or.inl h'
    · exact Or.inr ⟨rfl, List.mem_cons_of_mem _ hmem⟩

theorem outer_fold_mem (g : Graph) :
    ∀ (l : List Nat) (acc : List (List Nat)) (y j : Nat),
      j ∈ ((l.foldl (fun a i =>
          (g.neighbors_x.getD i []).foldl
            (fun acc2 y2 => acc2.set y2 ((acc2.getD y2 []) ++ [i])) a) acc).getD y []) →
      j ∈ acc.getD y [] ∨ (j ∈ l ∧ y ∈ g.neighbors_x.getD j []) := by
  intro l
  induction l with
  | nil => intro acc y j h; exact Or.inl h
  | cons i rest ih =>
    intro acc y j h
    rcases ih _ y j h with h' | ⟨hjr, hyn⟩
    · rcases inner_fold_mem i _ acc y j h' with h'' | ⟨rfl, hmem⟩
      · exact Or.inl h''
      · exact Or.inr ⟨List.mem_cons_self _ _, hmem⟩
    · exact Or.inr ⟨List.mem_cons_of_mem _ hjr, hyn⟩

theorem yNeighbors_mem (g : Graph) (y j : Nat)
    (h : j ∈ (yNeighbors g).getD y []) :
    j < g.n ∧ y ∈ g.neighbors_x.getD j [] := by
  unfold yNeighbors at h
  rcases outer_fold_mem g _ _ y j h with h' | ⟨hjr, hyn⟩
  · exfalso
    rw [List.getD_eq_getElem?_getD] at h'
    rcases Nat.lt_or_ge y g.n with hy | hy
    · rw [List.getElem?_replicate, if_pos hy] at h'
      exact absurd (by simpa using h') (List.not_mem_nil j)
    · rw [List.getElem?_eq_none (by simpa using hy)] at h'
      exact absurd (by simpa using h') (List.not_mem_nil j)
  · exact ⟨List.mem_range.mp hjr, hyn⟩

theorem dfs_zero (g : Graph) (yN : List (List Nat)) (visX visY : Nat → Bool)
    (path : List PathV) (cib : Bool) (ci : Nat) :
    dfs g yN 0 visX visY path cib ci =
      if path.length = 2 * g.n then
        match path.head? with
        | none => none
        | some (first_type, first_idx) =>
          if cib = (first_type = Side.X) then none
          else if cib then (if is_edge g ci first_idx then some path else none)
          else (if is_edge g first_idx ci then some path else none)
      else none := rfl

theorem dfs_succ (g : Graph) (yN : List (List Nat)) (f : Nat)
    (visX visY : Nat → Bool) (path : List PathV) (cib : Bool) (ci : Nat) :
    dfs g yN (f + 1) visX visY path cib ci =
      if path.length = 2 * g.n then
        match path.head? with
        | none => none
        | some (first_type, first_idx) =>
          if cib = (first_type = Side.X) then none
          else if cib then (if is_edge g ci first_idx then some path else none)
          else (if is_edge g first_idx ci then some path else none)
      else
        if cib then
          (g.neighbors_x.getD ci []).findSome? (fun y =>
            if visY y then none
            else dfs g yN f visX (markVisited visY y) (path ++ [(Side.Y, y)]) false y)
        else
          (yN.getD ci []).findSome? (fun i =>
            if visX i then none
            else dfs g yN f (markVisited visX i) visY (path ++ [(Side.X, i)]) true i) := rfl

theorem dfs_closure (g : Graph) {path p : List PathV} {cib : Bool} {ci i0 : Nat}
    (h : (if cib = (Side.X = Side.X) then none
          else if cib then (if is_edge g ci i0 then some path else none)
          else (if is_edge g i0 ci then some path else none)) = some p)
    (hlen : path.length = 2 * g.n)
    (hlast : path.getLast? = some ((if cib then Side.X else Side.Y), ci))
    (hh : path.head? = some (Side.X, i0))
    (hchain : chainOk g path = true) (hnd : path.Nodup)
    (hbnd : ∀ pv ∈ path, pv.2 < g.n) :
    p.length = 2 * g.n ∧ chainOk g p = true ∧ p.Nodup ∧
      (∀ pv ∈ p, pv.2 < g.n) ∧ p.head? = path.head? ∧ closesCycle g p = true := by
  cases cib
  · rw [if_neg (by simp)] at h
    rw [if_neg (by simp)] at h
    split at h
    · rename_i hedge
      cases Option.some.inj h
      refine ⟨hlen, hchain, hnd, hbnd, rfl, ?_⟩
      unfold closesCycle
      rw [hh, hlast]
      simpa [edgeBetween] using hedge
    · exact Option.noConfusion h
  · rw [if_pos (by simp)] at h
    exact Option.noConfusion h

theorem dfs_sound (g : Graph) (yN : List (List Nat))
    (hyN : ∀ y j, j ∈ yN.getD y [] → j < g.n ∧ y ∈ g.neighbors_x.getD j [])
    (hvalid : ∀ i, i < g.n → ∀ y ∈ g.neighbors_x.getD i [], y < g.n) :
    ∀ (fuel : Nat) (visX visY : Nat → Bool) (path : List PathV) (cib : Bool)
      (ci : Nat) (p : List PathV),
      dfs g yN fuel visX visY path cib ci = some p →
      path ≠ [] →
      path.getLast? = some ((if cib then Side.X else Side.Y), ci) →
      (∃ i0, path.head? = some (Side.X, i0)) →
      chainOk g path = true →
      path.Nodup →
      (∀ pv ∈ path, pv.2 < g.n) →
      (∀ j, (Side.X, j) ∈ path → visX j = true) →
      (∀ j, (Side.Y, j) ∈ path → visY j = true) →
      p.length = 2 * g.n ∧ chainOk g p = true ∧ p.Nodup ∧
        (∀ pv ∈ p, pv.2 < g.n) ∧ p.head? = path.head? ∧ closesCycle g p = true := by
  intro fuel
  induction fuel with
  | zero =>
    intro visX visY path cib ci p h hne hlast hhead hchain hnd hbnd hvx hvy
    rcases hhead with ⟨i0, hh⟩
    rw [dfs_zero] at h
    by_cases hlen : path.length = 2 * g.n
    · rw [if_pos hlen, hh] at h
      exact dfs_closure g h hlen hlast hh hchain hnd hbnd
    · rw [if_neg hlen] at h
      exact Option.noConfusion h
  | succ f ih =>
    intro visX visY path cib ci p h hne hlast hhead hchain hnd hbnd hvx hvy
    rcases hhead with ⟨i0, hh⟩
    rw [dfs_succ] at h
    by_cases hlen : path.length = 2 * g.n
    · rw [if_pos hlen, hh] at h
      exact dfs_closure g h hlen hlast hh hchain hnd hbnd
    · rw [if_neg hlen] at h
      cases cib
      · -- current vertex is on the Y side: step Y -> X through yN
        rw [if_neg (by simp)] at h
        rcases List.exists_of_findSome?_eq_some h with ⟨i, hi_mem, heq⟩
        rcases hyN ci i hi_mem with ⟨hin, hedge_mem⟩
        split at heq
        · exact Option.noConfusion heq
        · rename_i hviX
          have hvisxi : visX i = false := by
            revert hviX
            cases visX i <;> simp
          have hlast2 : (path ++ [(Side.X, i)]).getLast? =
              some ((if true then Side.X else Side.Y), i) := by
            rw [List.getLast?_concat]
            rfl
          have hnotmem : (Side.X, i) ∉ path := by
            intro hmem
            rw [hvx i hmem] at hvisxi
            exact Bool.noConfusion hvisxi
          have hedge : edgeBetween g ((if false then Side.X else Side.Y), ci)
              (Side.X, i) = true := by
            show is_edge g i ci = true
            exact decide_eq_true hedge_mem
          have hres := ih (markVisited visX i) visY (path ++ [(Side.X, i)]) true i p heq
            (by simp) hlast2 ⟨i0, by rw [head?_append_singleton _ hne]; exact hh⟩
            (chainOk_concat g path _ _ hlast hchain hedge)
            (nodup_concat hnd hnotmem)
            (by
              intro pv hpv
              rcases List.mem_append.mp hpv with h' | h'
              · exact hbnd pv h'
              · rcases List.mem_singleton.mp h' with rfl
                exact hin)
            (by
              intro j hj
              rcases List.mem_append.mp hj with h' | h'
              · unfold markVisited
                rw [hvx j h']
                split <;> rfl
              · rcases List.mem_singleton.mp h' with ⟨rfl⟩
                unfold markVisited
                simp)
            (by
              intro j hj
              rcases List.mem_append.mp hj with h' | h'
              · exact hvy j h'
              · rcases List.mem_singleton.mp h' with ⟨h''⟩)
          rcases hres with ⟨c1, c2, c3, c4, c5, c6⟩
          refine ⟨c1, c2, c3, c4, ?_, c6⟩
          rw [c5, head?_append_singleton _ hne]
      · -- current vertex is on the X side: step X -> Y through neighbors_x
        rw [if_pos (by simp)] at h
        rcases List.exists_of_findSome?_eq_some h with ⟨y, hy_mem, heq⟩
        have hci : ci < g.n := by
          have hmem := List.mem_of_mem_getLast? hlast
          simpa using hbnd _ hmem
        have hyn : y < g.n := hvalid ci hci y hy_mem
        split at heq
        · exact Option.noConfusion heq
        · rename_i hviY
          have hvisyy : visY y = false := by
            revert hviY
            cases visY y <;> simp
          have hlast2 : (path ++ [(Side.Y, y)]).getLast? =
              some ((if false then Side.X else Side.Y), y) := by
            rw [List.getLast?_concat]
            rfl
          have hnotmem : (Side.Y, y) ∉ path := by
            intro hmem
            rw [hvy y hmem] at hvisyy
            exact Bool.noConfusion hvisyy
          have hedge : edgeBetween g ((if true then Side.X else Side.Y), ci)
              (Side.Y, y) = true := by
            show is_edge g ci y = true
            exact decide_eq_true hy_mem
          have hres := ih visX (markVisited visY y) (path ++ [(Side.Y, y)]) false y p heq
            (by simp) hlast2 ⟨i0, by rw [head?_append_singleton _ hne]; exact hh⟩
            (chainOk_concat g path _ _ hlast hchain hedge)
            (nodup_concat hnd hnotmem)
            (by
              intro pv hpv
              rcases List.mem_append.mp hpv with h' | h'
              · exact hbnd pv h'
              · rcases List.mem_singleton.mp h' with rfl
                exact hyn)
            (by
              intro j hj
              rcases List.mem_append.mp hj with h' | h'
              · exact hvx j h'
              · rcases List.mem_singleton.mp h' with ⟨h''⟩)
            (by
              intro j hj
              rcases List.mem_append.mp hj with h' | h'
              · unfold markVisited
                rw [hvy j h']
                split <;> rfl
              · rcases List.mem_singleton.mp h' with ⟨rfl⟩
                unfold markVisited
                simp)
          rcases hres with ⟨c1, c2, c3, c4, c5, c6⟩
          refine ⟨c1, c2, c3, c4, ?_, c6⟩
          rw [c5, head?_append_singleton _ hne]

theorem length_filter_altFrom_X (p : List PathV) : ∀ s, altFrom s p = true →
    (p.filter (fun v => decide (v.1 = Side.X))).length =
      (if s = Side.X then (p.length + 1) / 2 else p.length / 2) := by
  induction p with
  | nil => intro s _; cases s <;> simp
  | cons v rest ih =>
    intro s h
    have h2 : (decide (v.1 = s) && altFrom (flipSide s) rest) = true := h
    rw [Bool.and_eq_true, decide_eq_true_iff] at h2
    have hr := ih (flipSide s) h2.2
    rw [List.filter_cons]
    cases s
    · rw [if_pos (by simp [h2.1])]
      rw [List.length_cons, hr]
      rw [if_neg (show flipSide Side.X ≠ Side.X by decide), if_pos rfl, List.length_cons]
      omega
    · rw [if_neg (by simp [h2.1])]
      rw [hr]
      rw [if_pos (show flipSide Side.Y = Side.X by decide)]
      rw [if_neg (show (Side.Y : Side) ≠ Side.X by decide), List.length_cons]

theorem length_filter_altFrom_Y (p : List PathV) : ∀ s, altFrom s p = true →
    (p.filter (fun v => decide (v.1 = Side.Y))).length =
      (if s = Side.Y then (p.length + 1) / 2 else p.length / 2) := by
  induction p with
  | nil => intro s _; cases s <;> simp
  | cons v rest ih =>
    intro s h
    have h2 : (decide (v.1 = s) && altFrom (flipSide s) rest) = true := h
    rw [Bool.and_eq_true, decide_eq_true_iff] at h2
    have hr := ih (flipSide s) h2.2
    rw [List.filter_cons]
    cases s
    · rw [if_neg (by simp [h2.1])]
      rw [hr]
      rw [if_pos (show flipSide Side.X = Side.Y by decide)]
      rw [if_neg (show (Side.X : Side) ≠ Side.Y by decide), List.length_cons]
    · rw [if_pos (by simp [h2.1])]
      rw [List.length_cons, hr]
      rw [if_neg (show flipSide Side.Y ≠ Side.Y by decide), if_pos rfl, List.length_cons]
      omega

theorem mem_of_nodup_length {xs : List Nat} {n : Nat} (hnd : xs.Nodup)
    (hlen : xs.length = n) (hbnd : ∀ x ∈ xs, x < n) : ∀ j < n, j ∈ xs := by
  intro j hj
  have hsub : xs.toFinset ⊆ Finset.range n := by
    intro x hx
    rw [Finset.mem_range]
    exact hbnd x (List.mem_toFinset.mp hx)
  have hcard : (Finset.range n).card ≤ xs.toFinset.card := by
    rw [List.toFinset_card_of_nodup hnd, hlen, Finset.card_range]
  have heq := Finset.eq_of_subset_of_card_le hsub hcard
  have : j ∈ xs.toFinset := by
    rw [heq]
    exact Finset.mem_range.mpr hj
  exact List.mem_toFinset.mp this

theorem count_eq_one_of_nodup_mem {α : Type} [BEq α] [LawfulBEq α] {l : List α} {a : α}
    (hnd : l.Nodup) (ha : a ∈ l) : l.count a = 1 := by
  induction l with
  | nil => exact absurd ha (List.not_mem_nil a)
  | cons x xs ih =>
    rw [List.count_cons]
    by_cases hax : a = x
    · subst hax
      have hnot : a ∉ xs := (List.nodup_cons.mp hnd).1
      have h0 : xs.count a = 0 := by
        rw [List.count_eq_zero]
        exact hnot
      simp [h0]
    · have hmem : a ∈ xs := by
        rcases List.mem_cons.mp ha with h | h
        · exact absurd h hax
        · exact h
      have h1 := ih (List.nodup_cons.mp hnd).2 hmem
      have hxa : ¬ x = a := fun h => hax h.symm
      simp [h1, hxa]

theorem cycle_counts (g : Graph) (p : List PathV) (hlen : p.length = 2 * g.n)
    (halt : altFrom Side.X p = true) (hnd : p.Nodup)
    (hbnd : ∀ pv ∈ p, pv.2 < g.n) :
    ∀ j < g.n, p.count (Side.X, j) = 1 ∧ p.count (Side.Y, j) = 1 := by
  intro j hj
  constructor
  · have hxnd : ((p.filter (fun v => decide (v.1 = Side.X))).map Prod.snd).Nodup := by
      refine List.Nodup.map_on ?_ (List.Nodup.filter _ hnd)
      intro x hx y hy hxy
      have hx1 : x.1 = Side.X := by simpa using (List.mem_filter.mp hx).2
      have hy1 : y.1 = Side.X := by simpa using (List.mem_filter.mp hy).2
      exact Prod.ext (hx1.trans hy1.symm) hxy
    have hxlen : ((p.filter (fun v => decide (v.1 = Side.X))).map Prod.snd).length = g.n := by
      rw [List.length_map, length_filter_altFrom_X p Side.X halt, if_pos rfl, hlen]
      omega
    have hxbnd : ∀ x ∈ (p.filter (fun v => decide (v.1 = Side.X))).map Prod.snd, x < g.n := by
      intro x hx
      rcases List.mem_map.mp hx with ⟨pv, hpv, rfl⟩
      exact hbnd pv (List.mem_filter.mp hpv).1
    have hjm := mem_of_nodup_length hxnd hxlen hxbnd j hj
    rcases List.mem_map.mp hjm with ⟨pv, hpv, hsnd⟩
    have hfst : pv.1 = Side.X := by simpa using (List.mem_filter.mp hpv).2
    have hpeq : pv = (Side.X, j) := Prod.ext hfst hsnd
    rw [← hpeq]
    exact count_eq_one_of_nodup_mem hnd (List.mem_filter.mp hpv).1
  · have hynd : ((p.filter (fun v => decide (v.1 = Side.Y))).map Prod.snd).Nodup := by
      refine List.Nodup.map_on ?_ (List.Nodup.filter _ hnd)
      intro x hx y hy hxy
      have hx1 : x.1 = Side.Y := by simpa using (List.mem_filter.mp hx).2
      have hy1 : y.1 = Side.Y := by simpa using (List.mem_filter.mp hy).2
      exact Prod.ext (hx1.trans hy1.symm) hxy
    have hylen : ((p.filter (fun v => decide (v.1 = Side.Y))).map Prod.snd).length = g.n := by
      rw [List.length_map, length_filter_altFrom_Y p Side.X halt,
        if_neg (by decide : (Side.X : Side) ≠ Side.Y), hlen]
      omega
    have hybnd : ∀ x ∈ (p.filter (fun v => decide (v.1 = Side.Y))).map Prod.snd, x < g.n := by
      intro x hx
      rcases List.mem_map.mp hx with ⟨pv, hpv, rfl⟩
      exact hbnd pv (List.mem_filter.mp hpv).1
    have hjm := mem_of_nodup_length hynd hylen hybnd j hj
    rcases List.mem_map.mp hjm with ⟨pv, hpv, hsnd⟩
    have hfst : pv.1 = Side.Y := by simpa using (List.mem_filter.mp hpv).2
    have hpeq : pv = (Side.Y, j) := Prod.ext hfst hsnd
    rw [← hpeq]
    exact count_eq_one_of_nodup_mem hnd (List.mem_filter.mp hpv).1

/-- Claim C2: whenever `find_cycle` returns a sequence rather than `none`,
that sequence has length exactly `2n`, alternates X and Y side-tags, visits
every X-index and every Y-index exactly once, every consecutive pair is an
edge of the graph, and the last vertex is adjacent (type-consistently) to the
first; for `n = 0` it returns the empty sequence, not `none`.  The adjacency
validity hypothesis holds for every constructed graph. -/
theorem find_cycle_sound (g : Graph)
    (hvalid : ∀ i, i < g.n → ∀ y ∈ g.neighbors_x.getD i [], y < g.n) :
    (∀ p, find_cycle g = some p →
      p.length = 2 * g.n ∧ alternatesXY p = true ∧
      (∀ j < g.n, p.count (Side.X, j) = 1 ∧ p.count (Side.Y, j) = 1) ∧
      chainOk g p = true ∧ closesCycle g p = true) ∧
    (g.n = 0 → find_cycle g = some []) := by
  constructor
  · intro p hp
    unfold find_cycle at hp
    split at hp
    · rename_i hn0
      cases Option.some.inj hp
      refine ⟨by simp [hn0], rfl, ?_, rfl, rfl⟩
      intro j hj
      omega
    · rename_i hn0
      rcases List.exists_of_findSome?_eq_some hp with ⟨start, hstart_mem, heq⟩
      have hstart : start < g.n := List.mem_range.mp hstart_mem
      have hres := dfs_sound g (yNeighbors g)
        (fun y j hj => yNeighbors_mem g y j hj) hvalid (2 * g.n)
        (markVisited (fun _ => false) start) (fun _ => false)
        [(Side.X, start)] true start p heq
        (by simp) rfl ⟨start, rfl⟩ rfl (List.nodup_singleton _)
        (by
          intro pv hpv
          rcases List.mem_singleton.mp hpv with rfl
          exact hstart)
        (by
          intro j hj
          rcases List.mem_singleton.mp hj with ⟨rfl⟩
          unfold markVisited
          simp)
        (by
          intro j hj
          rcases List.mem_singleton.mp hj with ⟨h'⟩)
      rcases hres with ⟨c1, c2, c3, c4, c5, c6⟩
      have halt : altFrom Side.X p = true := by
        refine altFrom_of_chain g p Side.X c2 ?_
        intro h0 hh0
        rw [c5] at hh0
        cases Option.some.inj hh0
        rfl
      exact ⟨c1, halt, cycle_counts g p c1 halt c3 c4, c2, c6⟩
  · intro h0
    unfold find_cycle
    rw [if_pos h0]

theorem find_cycle_sound_witness :
    cycleN3.length = 6 ∧ alternatesXY cycleN3 = true := by
  have h := (find_cycle_sound hamiltonianN3 (by decide)).1 cycleN3 (by decide)
  exact ⟨h.1, h.2.1⟩

end HamiltonDP

